import Mathlib

/-!
Verification of the core of `github-repo-analyzer` (`src/main.py`): the
recursive repository-tree traversal and rendering engine, the URL identity
parser, the cached file-content fetcher and the Markdown document assembler.

The Python code is shallowly embedded as follows.

* A Python `dict` (the content cache and the `contents` index) is an
  association list `List (String × String)` with CPython assignment
  semantics: assigning to an existing key overwrites its value in place
  (keeping the original insertion position), assigning a fresh key appends.
* The remote repository tree seen through `get_contents` is the inductive
  `RTree`: each node carries the `type`, `name` and `url` fields the code
  reads from a listing element, together with the result of listing that
  node as a directory (either the entries, or the HTTP status on which
  `raise_for_status` would raise).  The content-fetch network
  (`requests.get(file_api_url)` plus JSON decoding) is a function
  `String → FetchResponse`.
* `sorted(items, key=lambda x: (x['type'] != 'dir', x['name']))` is a stable
  sort by that key; it is embedded as `List.insertionSort` (stable) over the
  same key order, with strings compared lexicographically by code point
  exactly as CPython compares `str`.
* Network requests are observable in the embedding: `FetchState.log`
  records each locator passed to `requests.get` by `get_file_content`, in
  order.  It changes no control flow.
* Exceptions are `Except`: `get_contents` failures abort the traversal
  (`Except Nat`, the HTTP status), `get_file_content` failures are
  `Except String` (the exception message) and are caught by the walker.
-/

/-! ## Python dict semantics (assoc lists with insertion order) -/

/-- Lookup in an association list, first binding wins (dict lookup). -/
def dictLookup (m : List (String × String)) (k : String) : Option String :=
  match m with
  | [] => none
  | (k', v) :: rest => if k' = k then some v else dictLookup rest k

/-- CPython dict assignment `m[k] = v`: overwrite in place if `k` is
present (keeping its original position), append otherwise. -/
def dictInsert (m : List (String × String)) (k v : String) :
    List (String × String) :=
  match m with
  | [] => [(k, v)]
  | (k', v') :: rest =>
    if k' = k then (k', v) :: rest else (k', v') :: dictInsert rest k v

theorem dictLookup_dictInsert_self (m : List (String × String)) (k v : String) :
    dictLookup (dictInsert m k v) k = some v := by
  induction m with
  | nil => simp [dictInsert, dictLookup]
  | cons hd tl ih =>
    obtain ⟨k', v'⟩ := hd
    by_cases h : k' = k
    · simp [dictInsert, dictLookup, h]
    · simp [dictInsert, dictLookup, h, ih]

theorem dictLookup_dictInsert_ne (m : List (String × String)) {k k' : String}
    (v : String) (h : k' ≠ k) :
    dictLookup (dictInsert m k v) k' = dictLookup m k' := by
  induction m with
  | nil => simp [dictInsert, dictLookup, Ne.symm h]
  | cons hd tl ih =>
    obtain ⟨k0, v0⟩ := hd
    by_cases h0 : k0 = k
    · subst h0
      simp [dictInsert, dictLookup, Ne.symm h]
    · by_cases h1 : k0 = k'
      · simp [dictInsert, dictLookup, h0, h1, h]
      · simp [dictInsert, dictLookup, h0, h1, ih]

theorem dictInsert_keys (m : List (String × String)) (k v : String) :
    (dictInsert m k v).map Prod.fst =
      if (dictLookup m k).isSome then m.map Prod.fst
      else m.map Prod.fst ++ [k] := by
  induction m with
  | nil => simp [dictInsert, dictLookup]
  | cons hd tl ih =>
    obtain ⟨k0, v0⟩ := hd
    by_cases h0 : k0 = k
    · simp [dictInsert, dictLookup, h0]
    · simp only [dictInsert, dictLookup, if_neg h0, List.map_cons, ih]
      by_cases h1 : (dictLookup tl k).isSome <;> simp [h1]

theorem dictLookup_isSome_iff_mem_keys (m : List (String × String))
    (k : String) : (dictLookup m k).isSome ↔ k ∈ m.map Prod.fst := by
  induction m with
  | nil => simp [dictLookup]
  | cons hd tl ih =>
    obtain ⟨k0, v0⟩ := hd
    by_cases h0 : k0 = k
    · subst h0; simp [dictLookup]
    · simp [dictLookup, h0, ih, Ne.symm h0]

theorem dictInsert_keys_nodup {m : List (String × String)} (k v : String)
    (h : (m.map Prod.fst).Nodup) :
    ((dictInsert m k v).map Prod.fst).Nodup := by
  rw [dictInsert_keys]
  by_cases h1 : (dictLookup m k).isSome
  · simpa [h1]
  · rw [if_neg h1]
    rw [dictLookup_isSome_iff_mem_keys] at h1
    simpa [List.nodup_append, h] using h1

/-! ## Code-point string comparison (CPython `str` ordering) -/

/-- Lexicographic comparison of char lists by Unicode code point, the order
CPython uses to compare `str` values inside `sorted`. -/
def charLeB : List Char → List Char → Bool
  | [], _ => true
  | _ :: _, [] => false
  | a :: as, b :: bs =>
    if a.toNat < b.toNat then true
    else if b.toNat < a.toNat then false
    else charLeB as bs

/-- Code-point lexicographic `≤` on strings. -/
def strLeB (s t : String) : Bool := charLeB s.data t.data

theorem charLeB_cons_iff (a b : Char) (as bs : List Char) :
    charLeB (a :: as) (b :: bs) = true ↔
      a.toNat < b.toNat ∨ (a.toNat = b.toNat ∧ charLeB as bs = true) := by
  simp only [charLeB]
  split
  · rename_i h; simp [h]
  · rename_i h
    split
    · rename_i h2
      simp only [Bool.false_eq_true, false_iff]
      rintro (h3 | ⟨h3, -⟩) <;> omega
    · rename_i h2
      have he : a.toNat = b.toNat := by omega
      constructor
      · intro h3; right; exact ⟨he, h3⟩
      · rintro (h3 | ⟨-, h3⟩)
        · omega
        · exact h3

theorem charLeB_total (s t : List Char) :
    charLeB s t = true ∨ charLeB t s = true := by
  induction s generalizing t with
  | nil => left; rfl
  | cons a as ih =>
    cases t with
    | nil => right; rfl
    | cons b bs =>
      rw [charLeB_cons_iff, charLeB_cons_iff]
      rcases Nat.lt_trichotomy a.toNat b.toNat with h | h | h
      · left; left; exact h
      · rcases ih bs with h2 | h2
        · left; right; exact ⟨h, h2⟩
        · right; right; exact ⟨h.symm, h2⟩
      · right; left; exact h

theorem charLeB_trans {s t u : List Char} (h1 : charLeB s t = true)
    (h2 : charLeB t u = true) : charLeB s u = true := by
  induction s generalizing t u with
  | nil => rfl
  | cons a as ih =>
    cases t with
    | nil => simp [charLeB] at h1
    | cons b bs =>
      cases u with
      | nil => simp [charLeB] at h2
      | cons c cs =>
        rw [charLeB_cons_iff] at h1 h2 ⊢
        rcases h1 with h1 | ⟨h1e, h1r⟩
        · rcases h2 with h2 | ⟨h2e, h2r⟩
          · left; omega
          · left; omega
        · rcases h2 with h2 | ⟨h2e, h2r⟩
          · left; omega
          · right; exact ⟨by omega, ih h1r h2r⟩

/-! ## The remote repository tree and the fetcher network -/

/-- One element of a directory listing as the code reads it: the fields
`type`, `name`, `url`, plus (for the embedding) what listing this element
as a directory would return: `Except.error status` models
`get_contents` raising via `raise_for_status`, `Except.ok entries` models
the JSON array of child elements. -/
inductive RTree where
  | node (type name url : String) (children : Except Nat (List RTree))

def RTree.type : RTree → String
  | .node t _ _ _ => t

def RTree.name : RTree → String
  | .node _ n _ _ => n

def RTree.url : RTree → String
  | .node _ _ u _ => u

def RTree.children : RTree → Except Nat (List RTree)
  | .node _ _ _ c => c

theorem RTree.sizeOf_children_lt (x : RTree) : sizeOf x.children < sizeOf x := by
  cases x with
  | node t n u c => simp [RTree.children]

/-- Outcome of one content request `requests.get(file_api_url)` followed by
`raise_for_status`, `.json()` and the decode steps of `get_file_content`:

* `httpError msg` — the request raises (e.g. a non-2xx status); `msg` is
  the message `str(e)` of the raised exception;
* `noContentField` — success, but the JSON object has no `content` field;
* `badDecode` — success with a `content` field whose base64 or UTF-8
  decoding raises;
* `ok text` — success, `text` is the decoded content. -/
inductive FetchResponse where
  | httpError (msg : String)
  | noContentField
  | badDecode
  | ok (text : String)

/-- The mutable fetcher state: `cache` is `self.content_cache`; `log`
records (for observation only) each locator actually passed to
`requests.get`, in request order. -/
structure FetchState where
  cache : List (String × String)
  log : List String
deriving DecidableEq

/-- `GitHubRepoAnalyzer.get_file_content` (src/main.py lines 37-52).
Cache check first; on a cache miss one request is performed (logged); a
raising request propagates (`Except.error`) without touching the cache;
a missing `content` field or a decode failure caches and returns a marker
string; otherwise the decoded text is cached and returned. -/
def get_file_content (net : String → FetchResponse) (st : FetchState)
    (file_api_url : String) : Except String String × FetchState :=
  match dictLookup st.cache file_api_url with
  | some v => (.ok v, st)
  | none =>
    let st1 : FetchState := { st with log := st.log ++ [file_api_url] }
    match net file_api_url with
    | .httpError msg => (.error msg, st1)
    | .noContentField =>
      (.ok "Non-text content or unexpected format.",
       { st1 with
         cache := dictInsert st1.cache file_api_url
           "Non-text content or unexpected format." })
    | .badDecode =>
      (.ok "Error decoding content (possibly binary file).",
       { st1 with
         cache := dictInsert st1.cache file_api_url
           "Error decoding content (possibly binary file)." })
    | .ok text =>
      (.ok text, { st1 with cache := dictInsert st1.cache file_api_url text })

/-! ## The sort key of `process_path` -/

/-- The key order of `sorted(items, key=lambda x: (x['type'] != 'dir',
x['name']))`: lexicographic on the pair (is-not-a-directory, name), with
`False < True` on booleans and code-point order on names. -/
def itemLeB (a b : RTree) : Bool :=
  if (a.type != "dir") = (b.type != "dir") then strLeB a.name b.name
  else (!(a.type != "dir") && (b.type != "dir"))

def itemLe (a b : RTree) : Prop := itemLeB a b = true

instance : DecidableRel itemLe := fun a b => instDecidableEqBool (itemLeB a b) true

instance : IsTotal RTree itemLe where
  total a b := by
    unfold itemLe itemLeB strLeB
    by_cases h : (a.type != "dir") = (b.type != "dir")
    · rw [if_pos h, if_pos h.symm]
      exact charLeB_total a.name.data b.name.data
    · rw [if_neg h, if_neg (Ne.symm h)]
      cases ka : (a.type != "dir") <;> cases kb : (b.type != "dir") <;>
        simp_all

instance : IsTrans RTree itemLe where
  trans a b c h1 h2 := by
    unfold itemLe itemLeB strLeB at h1 h2 ⊢
    by_cases hab : (a.type != "dir") = (b.type != "dir") <;>
      by_cases hbc : (b.type != "dir") = (c.type != "dir")
    · rw [if_pos hab] at h1
      rw [if_pos hbc] at h2
      rw [if_pos (hab.trans hbc)]
      exact charLeB_trans h1 h2
    · rw [if_neg (fun e => hbc (hab.symm.trans e))]
      rw [if_neg hbc] at h2
      cases kb : (b.type != "dir") <;> cases kc : (c.type != "dir") <;>
        simp_all
    · rw [if_neg (fun e => hab (e.trans hbc.symm))]
      rw [if_neg hab] at h1
      cases ka : (a.type != "dir") <;> cases kb : (b.type != "dir") <;>
        simp_all
    · rw [if_neg hab] at h1
      rw [if_neg hbc] at h2
      cases ka : (a.type != "dir") <;> cases kb : (b.type != "dir") <;>
        cases kc : (c.type != "dir") <;> simp_all

/-- `sorted(items, key=lambda x: (x['type'] != 'dir', x['name']))`
(src/main.py line 61): a stable sort by the tuple key, embedded as the
stable `insertionSort` over the same total preorder. -/
def sortItems (items : List RTree) : List RTree := List.insertionSort itemLe items

theorem sortItems_perm (items : List RTree) : (sortItems items).Perm items :=
  List.perm_insertionSort itemLe items

theorem sortItems_sorted (items : List RTree) :
    List.Sorted itemLe (sortItems items) :=
  List.sorted_insertionSort itemLe items

theorem sortItems_sizeOf (items : List RTree) :
    sizeOf (sortItems items) = sizeOf items :=
  (sortItems_perm items).sizeOf_eq_sizeOf

/-! ## The tree walker (`analyze_repo` / `process_path`) -/

/-- `full_path = f"{path}/{item['name']}" if path else item['name']`
(src/main.py line 65); a Python string is truthy iff non-empty. -/
def fullPath (path name : String) : String :=
  if path = "" then name else path ++ "/" ++ name

/-- The state the closure `process_path` mutates: the fetcher state of the
analyzer object, the `structure` list of tree lines (named `structure_`,
since `structure` is a Lean keyword) and the `contents` dict. -/
structure WalkState where
  fetch : FetchState
  structure_ : List String
  contents : List (String × String)
deriving DecidableEq

deriving instance DecidableEq for Except

/-- The `for idx, item in enumerate(items)` loop body of `process_path`
(src/main.py lines 63-75), iterating over the already sorted `items`.
`count` is `len(items)` and `idx` the enumeration index of the head of the
remaining list.  The recursive call `process_path(full_path, new_prefix)`
is inlined here (listing match plus sort plus loop over the sorted
children); `walk_dir_eq_process_path` below proves the inlined text equal
to `process_path` itself.  A listing error (raised by `get_contents`)
aborts the whole walk; a fetch error is caught and recorded
(`contents[full_path] = f"Error reading file: {str(e)}"`). -/
def walk (net : String → FetchResponse) (path pfx : String)
    (items : List RTree) (count idx : Nat) (st : WalkState) :
    Except Nat WalkState :=
  match items with
  | [] => .ok st
  | item :: rest =>
    let connector := if idx = count - 1 then "└── " else "├── "
    let st1 : WalkState :=
      { st with structure_ := st.structure_ ++ [pfx ++ connector ++ item.name] }
    let step : Except Nat WalkState :=
      if item.type = "dir" then
        match _hc : item.children with
        | .error s => .error s
        | .ok cs =>
          walk net (fullPath path item.name)
            (pfx ++ (if idx = count - 1 then "    " else "│   "))
            (sortItems cs) (sortItems cs).length 0 st1
      else
        match get_file_content net st1.fetch item.url with
        | (.ok v, fst1) =>
          .ok { st1 with
                fetch := fst1
                contents := dictInsert st1.contents (fullPath path item.name) v }
        | (.error msg, fst1) =>
          .ok { st1 with
                fetch := fst1
                contents := dictInsert st1.contents (fullPath path item.name)
                  ("Error reading file: " ++ msg) }
    match step with
    | .error s => .error s
    | .ok st2 => walk net path pfx rest count (idx + 1) st2
termination_by sizeOf items
decreasing_by
  · have h1 : sizeOf (Except.ok cs : Except Nat (List RTree)) =
        sizeOf item.children := by rw [_hc]
    have h2 := RTree.sizeOf_children_lt item
    simp only [Except.ok.sizeOf_spec] at h1
    simp only [List.cons.sizeOf_spec]
    rw [sortItems_sizeOf]
    omega
  · simp only [List.cons.sizeOf_spec]
    omega

/-- `process_path(path, prefix)` (src/main.py lines 59-75): list the
entries at `path` (raising aborts), sort them, then run the loop. -/
def process_path (net : String → FetchResponse) (path pfx : String)
    (listing : Except Nat (List RTree)) (st : WalkState) :
    Except Nat WalkState :=
  match listing with
  | .error s => .error s
  | .ok items => walk net path pfx (sortItems items) (sortItems items).length 0 st

/-- The state of a fresh `GitHubRepoAnalyzer` at the start of
`analyze_repo`: empty cache, no requests made, `structure = []`,
`contents = {}`. -/
def initWalkState : WalkState := ⟨⟨[], []⟩, [], []⟩

/-- `analyze_repo` (src/main.py lines 54-78): run `process_path('')` from
the fresh state and return `(structure, contents)`; a listing error
propagates (there is no handler inside `analyze_repo`). -/
def analyze_repo (net : String → FetchResponse)
    (root : Except Nat (List RTree)) :
    Except Nat (List String × List (String × String)) :=
  match process_path net "" "" root initWalkState with
  | .error s => .error s
  | .ok st => .ok (st.structure_, st.contents)

/-- The dir branch of the loop is exactly a recursive `process_path` call
on `(full_path, prefix + ("    " if last else "│   "))`, as in the
source. -/
theorem walk_dir_eq_process_path (net : String → FetchResponse)
    (path pfx : String) (item : RTree) (rest : List RTree) (count idx : Nat)
    (st : WalkState) (hdir : item.type = "dir") :
    walk net path pfx (item :: rest) count idx st =
      match process_path net (fullPath path item.name)
          (pfx ++ (if idx = count - 1 then "    " else "│   "))
          item.children
          { st with structure_ := st.structure_ ++
              [pfx ++ (if idx = count - 1 then "└── " else "├── ") ++ item.name] } with
      | .error s => .error s
      | .ok st2 => walk net path pfx rest count (idx + 1) st2 := by
  rw [walk]
  simp only [hdir, if_pos, process_path]
  cases item.children <;> rfl

/-- Fuel-indexed copy of `walk`, structurally recursive on `fuel`, used
only to evaluate concrete runs inside the kernel (`walkF_eq` proves it
equal to `walk` whenever the fuel is at least `sizeOf items`). -/
def walkF (fuel : Nat) (net : String → FetchResponse) (path pfx : String)
    (items : List RTree) (count idx : Nat) (st : WalkState) :
    Except Nat WalkState :=
  match fuel with
  | 0 => .error 0
  | fuel + 1 =>
    match items with
    | [] => .ok st
    | item :: rest =>
      let connector := if idx = count - 1 then "└── " else "├── "
      let st1 : WalkState :=
        { st with structure_ := st.structure_ ++ [pfx ++ connector ++ item.name] }
      let step : Except Nat WalkState :=
        if item.type = "dir" then
          match item.children with
          | .error s => .error s
          | .ok cs =>
            walkF fuel net (fullPath path item.name)
              (pfx ++ (if idx = count - 1 then "    " else "│   "))
              (sortItems cs) (sortItems cs).length 0 st1
        else
          match get_file_content net st1.fetch item.url with
          | (.ok v, fst1) =>
            .ok { st1 with
                  fetch := fst1
                  contents := dictInsert st1.contents (fullPath path item.name) v }
          | (.error msg, fst1) =>
            .ok { st1 with
                  fetch := fst1
                  contents := dictInsert st1.contents (fullPath path item.name)
                    ("Error reading file: " ++ msg) }
      match step with
      | .error s => .error s
      | .ok st2 => walkF fuel net path pfx rest count (idx + 1) st2

theorem walkF_eq (fuel : Nat) :
    ∀ (net : String → FetchResponse) (path pfx : String) (items : List RTree)
      (count idx : Nat) (st : WalkState), sizeOf items ≤ fuel →
      walkF fuel net path pfx items count idx st =
        walk net path pfx items count idx st := by
  induction fuel with
  | zero =>
    intro net path pfx items count idx st h
    exfalso
    cases items with
    | nil => simp [List.nil.sizeOf_spec] at h
    | cons item rest =>
      have := List.cons.sizeOf_spec item rest
      have hpos : 0 < sizeOf item := by cases item; simp_arith
      omega
  | succ fuel ih =>
    intro net path pfx items count idx st h
    cases items with
    | nil => rw [walkF, walk]
    | cons item rest =>
      rw [walkF, walk]
      have hsz := List.cons.sizeOf_spec item rest
      have hrest : sizeOf rest ≤ fuel := by omega
      by_cases hdir : item.type = "dir"
      · simp only [hdir, if_pos]
        cases hc : item.children with
        | error s => simp
        | ok cs =>
          have hcs : sizeOf (sortItems cs) ≤ fuel := by
            have h1 : sizeOf (Except.ok cs : Except Nat (List RTree)) =
                sizeOf item.children := by rw [hc]
            have h2 := RTree.sizeOf_children_lt item
            simp only [Except.ok.sizeOf_spec] at h1
            rw [sortItems_sizeOf]
            omega
          simp only [ih _ _ _ _ _ _ _ hcs]
          cases walk net (fullPath path item.name)
              (pfx ++ (if idx = count - 1 then "    " else "│   "))
              (sortItems cs) (sortItems cs).length 0
              { st with structure_ := st.structure_ ++
                  [pfx ++ (if idx = count - 1 then "└── " else "├── ") ++ item.name] } with
          | error s => simp
          | ok st2 => simp only [ih _ _ _ _ _ _ _ hrest]
      · simp only [hdir, if_neg, if_false]
        cases get_file_content net
            { st with structure_ := st.structure_ ++
                [pfx ++ (if idx = count - 1 then "└── " else "├── ") ++ item.name] }.fetch
            item.url with
        | mk r fst1 =>
          cases r with
          | ok v => simp only [ih _ _ _ _ _ _ _ hrest]
          | error msg => simp only [ih _ _ _ _ _ _ _ hrest]

/-! ## The pure line renderer (the structure-only shadow of the walker) -/

/-- The tree lines the loop of `process_path` emits for the (already
sorted) entries `items` at indices `idx, idx+1, ...` of `count` siblings
under line prefix `pfx`, per spec 4.4 step 3: for each entry, one line
`prefix + connector + name` (connector `└── ` iff last, i.e. iff
`idx = count - 1`), followed, for a directory, by the lines of its sorted
children rendered under `prefix + ("    " if last else "│   ")`
(depth-first, pre-order), followed by the lines of the remaining
siblings. -/
def renderLoop (pfx : String) (items : List RTree) (count idx : Nat) :
    List String :=
  match items with
  | [] => []
  | item :: rest =>
    (pfx ++ (if idx = count - 1 then "└── " else "├── ") ++ item.name) ::
      ((if item.type = "dir" then
          match _hc : item.children with
          | .error _ => []
          | .ok cs =>
            renderLoop (pfx ++ (if idx = count - 1 then "    " else "│   "))
              (sortItems cs) (sortItems cs).length 0
        else []) ++ renderLoop pfx rest count (idx + 1))
termination_by sizeOf items
decreasing_by
  · have h1 : sizeOf (Except.ok cs : Except Nat (List RTree)) =
        sizeOf item.children := by rw [_hc]
    have h2 := RTree.sizeOf_children_lt item
    simp only [Except.ok.sizeOf_spec] at h1
    simp only [List.cons.sizeOf_spec]
    rw [sortItems_sizeOf]
    omega
  · simp only [List.cons.sizeOf_spec]
    omega

/-- A successful (fuelled) walk appends to `structure` exactly the lines
`renderLoop` describes, leaving everything already there untouched. -/
theorem walkF_structure (fuel : Nat) :
    ∀ (net : String → FetchResponse) (path pfx : String) (items : List RTree)
      (count idx : Nat) (st st' : WalkState),
      walkF fuel net path pfx items count idx st = .ok st' →
      st'.structure_ = st.structure_ ++ renderLoop pfx items count idx := by
  induction fuel with
  | zero =>
    intro net path pfx items count idx st st' h
    simp [walkF] at h
  | succ fuel ih =>
    intro net path pfx items count idx st st' h
    cases items with
    | nil =>
      simp only [walkF] at h
      cases h
      rw [renderLoop]
      simp
    | cons item rest =>
      simp only [walkF] at h
      rw [renderLoop]
      by_cases hdir : item.type = "dir"
      · rw [if_pos hdir] at h
        rw [if_pos hdir]
        cases hc : item.children with
        | error s =>
          simp only [hc] at h
          exact Except.noConfusion h
        | ok cs =>
          simp only [hc] at h
          cases hstep : walkF fuel net (fullPath path item.name)
              (pfx ++ (if idx = count - 1 then "    " else "│   "))
              (sortItems cs) (sortItems cs).length 0
              { st with structure_ := st.structure_ ++
                  [pfx ++ (if idx = count - 1 then "└── " else "├── ") ++ item.name] } with
          | error s =>
            simp only [hstep] at h
            exact Except.noConfusion h
          | ok st2 =>
            simp only [hstep] at h
            have hchild := ih _ _ _ _ _ _ _ _ hstep
            have hrest := ih _ _ _ _ _ _ _ _ h
            rw [hrest, hchild]
            simp
      · rw [if_neg hdir] at h
        rw [if_neg hdir]
        rcases hgf : get_file_content net
            ({ st with structure_ := st.structure_ ++
                [pfx ++ (if idx = count - 1 then "└── " else "├── ") ++ item.name] } :
              WalkState).fetch item.url with ⟨r, fst1⟩
        cases r with
        | ok v =>
          simp only [hgf] at h
          have hrest := ih _ _ _ _ _ _ _ _ h
          rw [hrest]
          simp
        | error msg =>
          simp only [hgf] at h
          have hrest := ih _ _ _ _ _ _ _ _ h
          rw [hrest]
          simp

theorem dictLookup_dictInsert_isSome (m : List (String × String))
    (k k0 v : String) (h : (dictLookup m k).isSome) :
    (dictLookup (dictInsert m k0 v) k).isSome := by
  by_cases he : k = k0
  · subst he; simp [dictLookup_dictInsert_self]
  · rw [dictLookup_dictInsert_ne m v he]; exact h

/-- The walker touches `contents` only through dict assignment, so any
property of the contents dict preserved by `dictInsert` is an invariant of
a successful walk. -/
theorem walkF_contents_invariant (P : List (String × String) → Prop)
    (hP : ∀ m k v, P m → P (dictInsert m k v)) (fuel : Nat) :
    ∀ (net : String → FetchResponse) (path pfx : String) (items : List RTree)
      (count idx : Nat) (st st' : WalkState),
      walkF fuel net path pfx items count idx st = .ok st' →
      P st.contents → P st'.contents := by
  induction fuel with
  | zero =>
    intro net path pfx items count idx st st' h
    simp [walkF] at h
  | succ fuel ih =>
    intro net path pfx items count idx st st' h hp
    cases items with
    | nil =>
      simp only [walkF] at h
      cases h
      exact hp
    | cons item rest =>
      simp only [walkF] at h
      by_cases hdir : item.type = "dir"
      · rw [if_pos hdir] at h
        cases hc : item.children with
        | error s =>
          simp only [hc] at h
          exact Except.noConfusion h
        | ok cs =>
          simp only [hc] at h
          cases hstep : walkF fuel net (fullPath path item.name)
              (pfx ++ (if idx = count - 1 then "    " else "│   "))
              (sortItems cs) (sortItems cs).length 0
              { st with structure_ := st.structure_ ++
                  [pfx ++ (if idx = count - 1 then "└── " else "├── ") ++ item.name] } with
          | error s =>
            simp only [hstep] at h
            exact Except.noConfusion h
          | ok st2 =>
            simp only [hstep] at h
            exact ih _ _ _ _ _ _ _ _ h (ih _ _ _ _ _ _ _ _ hstep hp)
      · rw [if_neg hdir] at h
        rcases hgf : get_file_content net
            ({ st with structure_ := st.structure_ ++
                [pfx ++ (if idx = count - 1 then "└── " else "├── ") ++ item.name] } :
              WalkState).fetch item.url with ⟨r, fst1⟩
        cases r with
        | ok v =>
          simp only [hgf] at h
          exact ih _ _ _ _ _ _ _ _ h (hP _ _ _ hp)
        | error msg =>
          simp only [hgf] at h
          exact ih _ _ _ _ _ _ _ _ h (hP _ _ _ hp)

/-- Every file entry of a successfully walked listing ends up with its
full path as a key of the contents dict. -/
theorem walkF_files_present (fuel : Nat) :
    ∀ (net : String → FetchResponse) (path pfx : String) (items : List RTree)
      (count idx : Nat) (st st' : WalkState),
      walkF fuel net path pfx items count idx st = .ok st' →
      ∀ it ∈ items, it.type ≠ "dir" →
        (dictLookup st'.contents (fullPath path it.name)).isSome := by
  induction fuel with
  | zero =>
    intro net path pfx items count idx st st' h
    simp [walkF] at h
  | succ fuel ih =>
    intro net path pfx items count idx st st' h it hit hft
    cases items with
    | nil => simp at hit
    | cons item rest =>
      simp only [walkF] at h
      rcases List.mem_cons.mp hit with he | hr
      · subst he
        rw [if_neg hft] at h
        rcases hgf : get_file_content net
            ({ st with structure_ := st.structure_ ++
                [pfx ++ (if idx = count - 1 then "└── " else "├── ") ++ it.name] } :
              WalkState).fetch it.url with ⟨r, fst1⟩
        cases r with
        | ok v =>
          simp only [hgf] at h
          refine walkF_contents_invariant
            (fun m => (dictLookup m (fullPath path it.name)).isSome)
            (fun m k v => dictLookup_dictInsert_isSome m _ k v) fuel
            _ _ _ _ _ _ _ _ h ?_
          simp [dictLookup_dictInsert_self]
        | error msg =>
          simp only [hgf] at h
          refine walkF_contents_invariant
            (fun m => (dictLookup m (fullPath path it.name)).isSome)
            (fun m k v => dictLookup_dictInsert_isSome m _ k v) fuel
            _ _ _ _ _ _ _ _ h ?_
          simp [dictLookup_dictInsert_self]
      · by_cases hdir : item.type = "dir"
        · rw [if_pos hdir] at h
          cases hc : item.children with
          | error s =>
            simp only [hc] at h
            exact Except.noConfusion h
          | ok cs =>
            simp only [hc] at h
            cases hstep : walkF fuel net (fullPath path item.name)
                (pfx ++ (if idx = count - 1 then "    " else "│   "))
                (sortItems cs) (sortItems cs).length 0
                { st with structure_ := st.structure_ ++
                    [pfx ++ (if idx = count - 1 then "└── " else "├── ") ++ item.name] } with
            | error s =>
              simp only [hstep] at h
              exact Except.noConfusion h
            | ok st2 =>
              simp only [hstep] at h
              exact ih _ _ _ _ _ _ _ _ h it hr hft
        · rw [if_neg hdir] at h
          rcases hgf : get_file_content net
              ({ st with structure_ := st.structure_ ++
                  [pfx ++ (if idx = count - 1 then "└── " else "├── ") ++ item.name] } :
                WalkState).fetch item.url with ⟨r, fst1⟩
          cases r with
          | ok v =>
            simp only [hgf] at h
            exact ih _ _ _ _ _ _ _ _ h it hr hft
          | error msg =>
            simp only [hgf] at h
            exact ih _ _ _ _ _ _ _ _ h it hr hft

/-! ## Per-entry connector blocks (the shape claim C2 asserts) -/

/-- `BlocksFor pfx count idx items lines` says: `lines` splits into one
block per entry of `items` (entries numbered `idx, idx+1, ...` of `count`
siblings), each block starting with that entry's own tree line
`pfx ++ connector ++ name`, where the connector is `└── ` exactly when
the entry is the last sibling (`idx = count - 1`) and `├── ` otherwise;
the rest of a block (a directory's descendant lines) is unconstrained. -/
inductive BlocksFor (pfx : String) (count : Nat) :
    Nat → List RTree → List String → Prop
  | nil (idx : Nat) : BlocksFor pfx count idx [] []
  | cons (idx : Nat) (item : RTree) (rest : List RTree)
      (child lines : List String) :
      BlocksFor pfx count (idx + 1) rest lines →
      BlocksFor pfx count idx (item :: rest)
        ((pfx ++ (if idx = count - 1 then "└── " else "├── ") ++ item.name) ::
          child ++ lines)

theorem renderLoop_blocksFor (pfx : String) (count : Nat) :
    ∀ (items : List RTree) (idx : Nat),
      BlocksFor pfx count idx items (renderLoop pfx items count idx) := by
  intro items
  induction items with
  | nil =>
    intro idx
    rw [renderLoop]
    exact .nil idx
  | cons item rest ih =>
    intro idx
    rw [renderLoop]
    exact .cons idx item rest _ _ (ih (idx + 1))

/-! ## The document assembler (`save_analysis`) -/

/-- The text written for the `(path, content)` sections of the contents
dict, in iteration (= insertion) order (src/main.py lines 88-92). -/
def contentsSections : List (String × String) → String
  | [] => ""
  | (path, content) :: rest =>
    "## " ++ path ++ "\n\n" ++ "```\n" ++ content ++ "\n```\n\n" ++
      contentsSections rest

/-- `save_analysis` (src/main.py lines 80-92), as the full text written to
the output file: the successive `f.write` payloads concatenated. -/
def save_analysis (structure_ : List String)
    (contents : List (String × String)) : String :=
  "# Repository Structure\n\n" ++ "```\n" ++
    String.intercalate "\n" structure_ ++ "\n```\n\n" ++
    "# File Contents\n\n" ++ contentsSections contents

/-- Modelled from the spec words of claim C9: a header line followed by a
blank line, a fenced block of the tree lines joined by newlines, a blank
line, the second header with a blank line, then per `(path, content)`
pair a `## {path}` line, a blank line, a fenced block of the content and
a blank line.  A header line is `text ++ "\n"`, a blank line is `"\n"`,
and a fenced block is `"```\n" ++ body ++ "\n```\n"`. -/
def specAssemble (structure_ : List String)
    (contents : List (String × String)) : String :=
  ("# Repository Structure" ++ "\n") ++ "\n" ++
    ("```\n" ++ String.intercalate "\n" structure_ ++ "\n```\n") ++ "\n" ++
    ("# File Contents" ++ "\n") ++ "\n" ++
    String.join (contents.map fun pc =>
      ("## " ++ pc.1 ++ "\n") ++ "\n" ++
        ("```\n" ++ pc.2 ++ "\n```\n") ++ "\n")

theorem strJoin_cons (a : String) (l : List String) :
    String.join (a :: l) = a ++ String.join l := by
  apply String.ext
  simp [String.join_eq, String.data_append]

theorem contentsSections_eq_spec (contents : List (String × String)) :
    contentsSections contents =
      String.join (contents.map fun pc =>
        ("## " ++ pc.1 ++ "\n") ++ "\n" ++
          ("```\n" ++ pc.2 ++ "\n```\n") ++ "\n") := by
  induction contents with
  | nil => rfl
  | cons hd tl ih =>
    obtain ⟨p, c⟩ := hd
    rw [contentsSections, List.map_cons, strJoin_cons, ih]
    simp only [String.append_assoc]
    rw [show ("\n\n" : String) = "\n" ++ "\n" from rfl,
      show ("\n```\n\n" : String) = "\n```\n" ++ "\n" from rfl]
    simp only [String.append_assoc]

/-! ## The URL identity parser (`_parse_github_url`) -/

/-- The literal `github.com` both regex patterns start with (the regex
source escapes the dot; it matches only a literal dot). -/
def githubComChars : List Char := ['g', 'i', 't', 'h', 'u', 'b', '.', 'c', 'o', 'm']

/-- Match a literal char sequence at the head of `l`, returning the rest. -/
def stripLit : List Char → List Char → Option (List Char)
  | [], l => some l
  | _ :: _, [] => none
  | p :: ps, c :: cs => if c = p then stripLit ps cs else none

/-- Match `([^/]+)/([^/\.]+)(?:\.git)?$` against all of `t` (the part of
pattern 1 after `github\.com[:/]`).  `[^/]+` is greedy but cannot cross a
`/`, so the first capture is exactly the segment before the first `/`;
likewise the second capture stops at the first `/` or `.` (a newline is
in neither excluded class, so a greedy capture swallows it), after which
only an optional literal `.git` may remain before the anchor.  Without
`re.MULTILINE`, `$` matches at the end of the string or just before a
newline that ends the string, so the remainder may be empty, `.git`, or
`.git` followed by one final newline.  Backtracking gives no further
matches: any shorter capture leaves a next char that fits neither the
following literal nor the anchor. -/
def matchTail1 (t : List Char) : Option (String × String) :=
  let a := t.takeWhile (fun c => c != '/')
  match t.dropWhile (fun c => c != '/') with
  | '/' :: u =>
    if a.isEmpty then none
    else
      let b := u.takeWhile (fun c => c != '/' && c != '.')
      let rem := u.dropWhile (fun c => c != '/' && c != '.')
      if b.isEmpty then none
      else if rem = [] ∨ rem = ['.', 'g', 'i', 't'] ∨
          rem = ['.', 'g', 'i', 't', '\n'] then
        some (String.mk a, String.mk b)
      else none
  | _ => none

/-- Match `([^/]+)/([^/]+)/?$` against all of `t` (the part of pattern 2
after `github\.com/`).  As in `matchTail1`, a newline is not excluded
from the capture classes (a greedy capture swallows it), and `$` also
matches just before a newline that ends the string, so the remainder
after the second capture may be empty, `/`, or `/` followed by one final
newline. -/
def matchTail2 (t : List Char) : Option (String × String) :=
  let a := t.takeWhile (fun c => c != '/')
  match t.dropWhile (fun c => c != '/') with
  | '/' :: u =>
    if a.isEmpty then none
    else
      let b := u.takeWhile (fun c => c != '/')
      let rem := u.dropWhile (fun c => c != '/')
      if b.isEmpty then none
      else if rem = [] ∨ rem = ['/'] ∨ rem = ['/', '\n'] then
        some (String.mk a, String.mk b)
      else none
  | _ => none

/-- Try pattern 1, `github\.com[:/]([^/]+)/([^/\.]+)(?:\.git)?$`, at
exactly this start position. -/
def match1At (l : List Char) : Option (String × String) :=
  match stripLit githubComChars l with
  | none => none
  | some t =>
    match t with
    | c :: t1 => if c = ':' ∨ c = '/' then matchTail1 t1 else none
    | [] => none

/-- Try pattern 2, `github\.com/([^/]+)/([^/]+)/?$`, at exactly this
start position. -/
def match2At (l : List Char) : Option (String × String) :=
  match stripLit githubComChars l with
  | none => none
  | some t =>
    match t with
    | '/' :: t1 => matchTail2 t1
    | _ => none

/-- `re.search`: try the pattern at each start position, left to right;
the leftmost successful match wins. -/
def reSearch (m : List Char → Option (String × String)) :
    List Char → Option (String × String)
  | [] => m []
  | c :: cs =>
    match m (c :: cs) with
    | some r => some r
    | none => reSearch m cs

/-- `_parse_github_url` (src/main.py lines 15-29): try the HTTPS/SSH
pattern first, then the web pattern; raise `ValueError` with the fixed
message if neither matches anywhere in the string. -/
def «_parse_github_url» (url : String) : Except String (String × String) :=
  match reSearch match1At url.data with
  | some p => .ok p
  | none =>
    match reSearch match2At url.data with
    | some p => .ok p
    | none =>
      .error ("Invalid GitHub URL. Expected format: " ++
        "https://github.com/owner/repo or " ++
        "git@github.com:owner/repo.git")

theorem stripLit_eq_append {pat l r : List Char}
    (h : stripLit pat l = some r) : l = pat ++ r := by
  induction pat generalizing l with
  | nil =>
    simp only [stripLit, Option.some.injEq] at h
    simp [h]
  | cons p ps ih =>
    cases l with
    | nil => simp [stripLit] at h
    | cons c cs =>
      simp only [stripLit] at h
      by_cases hc : c = p
      · rw [if_pos hc] at h
        subst hc
        simp [ih h]
      · rw [if_neg hc] at h
        exact Option.noConfusion h

theorem match1At_dot_mem {l : List Char} {p : String × String}
    (h : match1At l = some p) : '.' ∈ l := by
  unfold match1At at h
  cases hs : stripLit githubComChars l with
  | none => rw [hs] at h; exact Option.noConfusion h
  | some t =>
    have := stripLit_eq_append hs
    subst this
    refine List.mem_append_left _ ?_
    decide

theorem reSearch_match1At_none_of_no_dot {l : List Char}
    (h : ∀ c ∈ l, c ≠ '.') : reSearch match1At l = none := by
  induction l with
  | nil => rfl
  | cons c cs ih =>
    rw [reSearch]
    cases hm : match1At (c :: cs) with
    | some p =>
      have hd := match1At_dot_mem hm
      rcases List.mem_cons.mp hd with he | hr
      · exact absurd he.symm (h c (List.mem_cons_self c cs))
      · exact absurd rfl (h '.' (List.mem_cons_of_mem c hr))
    | none => exact ih fun x hx => h x (List.mem_cons_of_mem c hx)

theorem takeWhile_append_of_all {α : Type} {p : α → Bool} {l1 : List α}
    (h : ∀ c ∈ l1, p c = true) {x : α} (hx : p x = false) (l2 : List α) :
    (l1 ++ x :: l2).takeWhile p = l1 := by
  induction l1 with
  | nil => simp [List.takeWhile_cons, hx]
  | cons a as ih =>
    have ha : p a = true := h a (List.mem_cons_self a as)
    simp only [List.cons_append, List.takeWhile_cons, ha, if_true]
    rw [ih fun c hc => h c (List.mem_cons_of_mem a hc)]

theorem dropWhile_append_of_all {α : Type} {p : α → Bool} {l1 : List α}
    (h : ∀ c ∈ l1, p c = true) {x : α} (hx : p x = false) (l2 : List α) :
    (l1 ++ x :: l2).dropWhile p = x :: l2 := by
  induction l1 with
  | nil => simp [List.dropWhile_cons, hx]
  | cons a as ih =>
    have ha : p a = true := h a (List.mem_cons_self a as)
    simp only [List.cons_append, List.dropWhile_cons, ha, if_true]
    exact ih fun c hc => h c (List.mem_cons_of_mem a hc)

theorem parse_https (o r : String)
    (ho1 : o.data ≠ []) (ho2 : ∀ c ∈ o.data, c ≠ '/' ∧ c ≠ '.')
    (hr1 : r.data ≠ []) (hr2 : ∀ c ∈ r.data, c ≠ '/' ∧ c ≠ '.') :
    «_parse_github_url» ("https://github.com/" ++ o ++ "/" ++ r) = .ok (o, r) := by
  have h0 : "https://github.com/".data =
      ['h','t','t','p','s',':','/','/','g','i','t','h','u','b','.','c','o','m','/'] := rfl
  have h1 : "/".data = ['/'] := rfl
  have hdata : ("https://github.com/" ++ o ++ "/" ++ r).data =
      'h':: 't':: 't':: 'p':: 's':: ':':: '/':: '/':: 'g':: 'i':: 't':: 'h':: 'u':: 'b':: '.':: 'c':: 'o':: 'm':: '/'::
        (o.data ++ '/' :: r.data) := by
    simp [String.data_append, h0, h1]
  have hoe : o.data.isEmpty = false := by
    cases hd : o.data with
    | nil => exact absurd hd ho1
    | cons a as => rfl
  have hre : r.data.isEmpty = false := by
    cases hd : r.data with
    | nil => exact absurd hd hr1
    | cons a as => rfl
  have ht1 : (o.data ++ '/' :: r.data).takeWhile (fun c => c != '/') = o.data :=
    takeWhile_append_of_all
      (fun c hc => by simp [(ho2 c hc).1]) (by simp) r.data
  have ht2 : (o.data ++ '/' :: r.data).dropWhile (fun c => c != '/') = '/' :: r.data :=
    dropWhile_append_of_all
      (fun c hc => by simp [(ho2 c hc).1]) (by simp) r.data
  have ht3 : r.data.takeWhile (fun c => c != '/' && c != '.') = r.data :=
    List.takeWhile_eq_self_iff.mpr fun c hc => by
      simp [(hr2 c hc).1, (hr2 c hc).2]
  have ht4 : r.data.dropWhile (fun c => c != '/' && c != '.') = [] :=
    List.dropWhile_eq_nil_iff.mpr fun c hc => by
      simp [(hr2 c hc).1, (hr2 c hc).2]
  unfold «_parse_github_url»
  rw [hdata]
  have hsearch : reSearch match1At
      ('h':: 't':: 't':: 'p':: 's':: ':':: '/':: '/':: 'g':: 'i':: 't':: 'h':: 'u':: 'b':: '.':: 'c':: 'o':: 'm':: '/'::
        (o.data ++ '/' :: r.data)) = some (o, r) := by
    simp [reSearch, match1At, stripLit, githubComChars, matchTail1,
      ht1, ht2, ht3, ht4, hoe, hre]
  rw [hsearch]

theorem parse_ssh (o r : String)
    (ho1 : o.data ≠ []) (ho2 : ∀ c ∈ o.data, c ≠ '/' ∧ c ≠ '.')
    (hr1 : r.data ≠ []) (hr2 : ∀ c ∈ r.data, c ≠ '/' ∧ c ≠ '.') :
    «_parse_github_url» ("git@github.com:" ++ o ++ "/" ++ r ++ ".git") = .ok (o, r) := by
  have h0 : "git@github.com:".data =
      ['g','i','t','@','g','i','t','h','u','b','.','c','o','m',':'] := rfl
  have h1 : "/".data = ['/'] := rfl
  have h2 : ".git".data = ['.','g','i','t'] := rfl
  have hdata : ("git@github.com:" ++ o ++ "/" ++ r ++ ".git").data =
      'g':: 'i':: 't':: '@':: 'g':: 'i':: 't':: 'h':: 'u':: 'b':: '.':: 'c':: 'o':: 'm':: ':'::
        (o.data ++ '/' :: (r.data ++ ['.','g','i','t'])) := by
    simp [String.data_append, h0, h1, h2]
  have hoe : o.data.isEmpty = false := by
    cases hd : o.data with
    | nil => exact absurd hd ho1
    | cons a as => rfl
  have hre : r.data.isEmpty = false := by
    cases hd : r.data with
    | nil => exact absurd hd hr1
    | cons a as => rfl
  have ht1 : (o.data ++ '/' :: (r.data ++ ['.','g','i','t'])).takeWhile
      (fun c => c != '/') = o.data :=
    takeWhile_append_of_all
      (fun c hc => by simp [(ho2 c hc).1]) (by simp) _
  have ht2 : (o.data ++ '/' :: (r.data ++ ['.','g','i','t'])).dropWhile
      (fun c => c != '/') = '/' :: (r.data ++ ['.','g','i','t']) :=
    dropWhile_append_of_all
      (fun c hc => by simp [(ho2 c hc).1]) (by simp) _
  have ht3 : (r.data ++ ['.','g','i','t']).takeWhile
      (fun c => c != '/' && c != '.') = r.data := by
    have : r.data ++ ['.','g','i','t'] = r.data ++ '.' :: ['g','i','t'] := rfl
    rw [this]
    exact takeWhile_append_of_all
      (fun c hc => by simp [(hr2 c hc).1, (hr2 c hc).2]) (by simp) _
  have ht4 : (r.data ++ ['.','g','i','t']).dropWhile
      (fun c => c != '/' && c != '.') = ['.','g','i','t'] := by
    have : r.data ++ ['.','g','i','t'] = r.data ++ '.' :: ['g','i','t'] := rfl
    rw [this]
    exact dropWhile_append_of_all
      (fun c hc => by simp [(hr2 c hc).1, (hr2 c hc).2]) (by simp) _
  unfold «_parse_github_url»
  rw [hdata]
  have hsearch : reSearch match1At
      ('g':: 'i':: 't':: '@':: 'g':: 'i':: 't':: 'h':: 'u':: 'b':: '.':: 'c':: 'o':: 'm':: ':'::
        (o.data ++ '/' :: (r.data ++ ['.','g','i','t']))) = some (o, r) := by
    simp [reSearch, match1At, stripLit, githubComChars, matchTail1,
      ht1, ht2, ht3, ht4, hoe, hre]
  rw [hsearch]

theorem parse_web_slash (o r : String)
    (ho1 : o.data ≠ []) (ho2 : ∀ c ∈ o.data, c ≠ '/' ∧ c ≠ '.')
    (hr1 : r.data ≠ []) (hr2 : ∀ c ∈ r.data, c ≠ '/' ∧ c ≠ '.') :
    «_parse_github_url» ("https://github.com/" ++ o ++ "/" ++ r ++ "/") = .ok (o, r) := by
  have h0 : "https://github.com/".data =
      ['h','t','t','p','s',':','/','/','g','i','t','h','u','b','.','c','o','m','/'] := rfl
  have h1 : "/".data = ['/'] := rfl
  have hdata : ("https://github.com/" ++ o ++ "/" ++ r ++ "/").data =
      'h':: 't':: 't':: 'p':: 's':: ':':: '/':: '/':: 'g':: 'i':: 't':: 'h':: 'u':: 'b':: '.':: 'c':: 'o':: 'm':: '/'::
        (o.data ++ '/' :: (r.data ++ ['/'])) := by
    simp [String.data_append, h0, h1]
  have hoe : o.data.isEmpty = false := by
    cases hd : o.data with
    | nil => exact absurd hd ho1
    | cons a as => rfl
  have hre : r.data.isEmpty = false := by
    cases hd : r.data with
    | nil => exact absurd hd hr1
    | cons a as => rfl
  have ht1 : (o.data ++ '/' :: (r.data ++ ['/'])).takeWhile
      (fun c => c != '/') = o.data :=
    takeWhile_append_of_all
      (fun c hc => by simp [(ho2 c hc).1]) (by simp) _
  have ht2 : (o.data ++ '/' :: (r.data ++ ['/'])).dropWhile
      (fun c => c != '/') = '/' :: (r.data ++ ['/']) :=
    dropWhile_append_of_all
      (fun c hc => by simp [(ho2 c hc).1]) (by simp) _
  have ht3 : (r.data ++ ['/']).takeWhile (fun c => c != '/' && c != '.') = r.data := by
    have : r.data ++ ['/'] = r.data ++ '/' :: [] := rfl
    rw [this]
    exact takeWhile_append_of_all
      (fun c hc => by simp [(hr2 c hc).1, (hr2 c hc).2]) (by simp) _
  have ht4 : (r.data ++ ['/']).dropWhile (fun c => c != '/' && c != '.') = ['/'] := by
    have : r.data ++ ['/'] = r.data ++ '/' :: [] := rfl
    rw [this]
    exact dropWhile_append_of_all
      (fun c hc => by simp [(hr2 c hc).1, (hr2 c hc).2]) (by simp) _
  have ht5 : (r.data ++ ['/']).takeWhile (fun c => c != '/') = r.data :=
    takeWhile_append_of_all
      (fun c hc => by simp [(hr2 c hc).1]) (by simp) _
  have ht6 : (r.data ++ ['/']).dropWhile (fun c => c != '/') = ['/'] :=
    dropWhile_append_of_all
      (fun c hc => by simp [(hr2 c hc).1]) (by simp) _
  have hnd : ∀ c ∈ (o.data ++ '/' :: (r.data ++ ['/'])), c ≠ '.' := by
    intro c hc
    rcases List.mem_append.mp hc with h | h
    · exact (ho2 c h).2
    · rcases List.mem_cons.mp h with he | h
      · subst he; decide
      · rcases List.mem_append.mp h with h | h
        · exact (hr2 c h).2
        · rcases List.mem_cons.mp h with he | h
          · subst he; decide
          · simp at h
  have hnodot : reSearch match1At (o.data ++ '/' :: (r.data ++ ['/'])) = none :=
    reSearch_match1At_none_of_no_dot hnd
  unfold «_parse_github_url»
  rw [hdata]
  have hsearch1 : reSearch match1At
      ('h':: 't':: 't':: 'p':: 's':: ':':: '/':: '/':: 'g':: 'i':: 't':: 'h':: 'u':: 'b':: '.':: 'c':: 'o':: 'm':: '/'::
        (o.data ++ '/' :: (r.data ++ ['/']))) = none := by
    simp [reSearch, match1At, stripLit, githubComChars, matchTail1,
      ht1, ht2, ht3, ht4, hoe, hre, hnodot]
  have hsearch2 : reSearch match2At
      ('h':: 't':: 't':: 'p':: 's':: ':':: '/':: '/':: 'g':: 'i':: 't':: 'h':: 'u':: 'b':: '.':: 'c':: 'o':: 'm':: '/'::
        (o.data ++ '/' :: (r.data ++ ['/']))) = some (o, r) := by
    simp [reSearch, match2At, stripLit, githubComChars, matchTail2,
      ht1, ht2, ht5, ht6, hoe, hre]
  rw [hsearch1, hsearch2]

/-- The trailing-newline rule of `re` pinned against the program: `$` also
matches just before a newline that ends the string, so the SSH form with
one final newline still parses to `(o, r)`; with the web form a greedy
`[^/]+` capture swallows an inner final newline into the repo name; two
trailing newlines defeat the anchor and are rejected. -/
theorem parse_trailing_newline_examples :
    «_parse_github_url» "git@github.com:octo/hello.git\n" = .ok ("octo", "hello") ∧
    «_parse_github_url» "https://github.com/octo/hello/\n" = .ok ("octo", "hello") ∧
    «_parse_github_url» "https://github.com/octo/hello\n" = .ok ("octo", "hello\n") ∧
    «_parse_github_url» "git@github.com:octo/hello.git\n\n" =
      .error ("Invalid GitHub URL. Expected format: " ++
        "https://github.com/owner/repo or " ++
        "git@github.com:owner/repo.git") := by
  refine ⟨?_, ?_, ?_, ?_⟩ <;> decide

/-! ## Concrete scenarios -/

/-- Root listing: files `b.txt`, `a.txt` and subdirectory `z`, as remote
order reports them. -/
def ex1Items : List RTree :=
  [.node "file" "b.txt" "ub" (.ok []),
   .node "file" "a.txt" "ua" (.ok []),
   .node "dir" "z" "uz" (.ok [])]

def ex1Net : String → FetchResponse := fun _ => .ok "data"

theorem ex1_run : process_path ex1Net "" "" (.ok ex1Items) initWalkState =
    .ok ⟨⟨[("ua", "data"), ("ub", "data")], ["ua", "ub"]⟩,
         ["├── z", "├── a.txt", "└── b.txt"],
         [("a.txt", "data"), ("b.txt", "data")]⟩ := by
  rw [process_path]
  rw [← walkF_eq (sizeOf (sortItems ex1Items)) ex1Net "" "" (sortItems ex1Items)
    (sortItems ex1Items).length 0 initWalkState (Nat.le_refl _)]
  decide

/-- Two sibling files with the same locator `u`, whose fetch raises. -/
def c6Items : List RTree :=
  [.node "file" "a" "u" (.ok []), .node "file" "b" "u" (.ok [])]

def c6Net : String → FetchResponse := fun _ => .httpError "boom"

theorem c6_run : process_path c6Net "" "" (.ok c6Items) initWalkState =
    .ok ⟨⟨[], ["u", "u"]⟩,
         ["├── a", "└── b"],
         [("a", "Error reading file: boom"), ("b", "Error reading file: boom")]⟩ := by
  rw [process_path]
  rw [← walkF_eq (sizeOf (sortItems c6Items)) c6Net "" "" (sortItems c6Items)
    (sortItems c6Items).length 0 initWalkState (Nat.le_refl _)]
  decide

def c6OkNet : String → FetchResponse := fun _ => .ok "x"

theorem c6ok_run : process_path c6OkNet "" "" (.ok c6Items) initWalkState =
    .ok ⟨⟨[("u", "x")], ["u"]⟩,
         ["├── a", "└── b"],
         [("a", "x"), ("b", "x")]⟩ := by
  rw [process_path]
  rw [← walkF_eq (sizeOf (sortItems c6Items)) c6OkNet "" "" (sortItems c6Items)
    (sortItems c6Items).length 0 initWalkState (Nat.le_refl _)]
  decide

/-- Two sibling file entries with the same name (hence the same full
path) but different locators. -/
def c10Items : List RTree :=
  [.node "file" "a" "u1" (.ok []), .node "file" "a" "u2" (.ok [])]

def c10Net : String → FetchResponse := fun u =>
  if u = "u1" then .ok "one" else .ok "two"

theorem c10_run : process_path c10Net "" "" (.ok c10Items) initWalkState =
    .ok ⟨⟨[("u1", "one"), ("u2", "two")], ["u1", "u2"]⟩,
         ["├── a", "└── a"],
         [("a", "two")]⟩ := by
  rw [process_path]
  rw [← walkF_eq (sizeOf (sortItems c10Items)) c10Net "" "" (sortItems c10Items)
    (sortItems c10Items).length 0 initWalkState (Nat.le_refl _)]
  decide

/-- A root whose subdirectory `d` fails to list with HTTP status 404,
next to a perfectly fine sibling file. -/
def c5Items : List RTree :=
  [.node "dir" "d" "ud" (.error 404), .node "file" "z.txt" "uz" (.ok [])]

theorem c5_run : analyze_repo ex1Net (.ok c5Items) = .error 404 := by
  rw [analyze_repo, process_path]
  rw [← walkF_eq (sizeOf (sortItems c5Items)) ex1Net "" "" (sortItems c5Items)
    (sortItems c5Items).length 0 initWalkState (Nat.le_refl _)]
  decide

/-! ## The claims -/

/-- The ordering claim C1 asserts between consecutive processed entries:
directories strictly before files; within the same kind, ascending by
name (code-point lexicographic, as CPython compares strings). -/
def claimOrder (a b : RTree) : Prop :=
  (a.type = "dir" ∧ b.type ≠ "dir") ∨
    ((a.type = "dir" ↔ b.type = "dir") ∧ strLeB a.name b.name = true)

theorem itemLe_imp_claimOrder {a b : RTree} (h : itemLe a b) : claimOrder a b := by
  unfold itemLe itemLeB at h
  by_cases hA : a.type = "dir" <;> by_cases hB : b.type = "dir"
  · right
    refine ⟨by simp [hA, hB], ?_⟩
    have he : (a.type != "dir") = (b.type != "dir") := by simp [hA, hB]
    rwa [if_pos he] at h
  · left; exact ⟨hA, hB⟩
  · exfalso
    simp [hA, hB] at h
  · right
    refine ⟨by simp [hA, hB], ?_⟩
    have ha1 : (a.type != "dir") = true := by simpa using hA
    have hb1 : (b.type != "dir") = true := by simpa using hB
    rw [ha1, hb1] at h
    rwa [if_pos rfl] at h

/-- C1: every directory listing the Tree Walker processes is arranged by
`sortItems` (a deterministic pure function of the listing): the processed
sequence is a permutation of the remote listing, pairwise ordered with
directories before files and, within the same kind, ascending by name;
in particular the listing `b.txt`, `a.txt`, `z` (a directory) is
processed as `z`, `a.txt`, `b.txt`, as the concrete run shows. -/
theorem c1_listing_sorted :
    (∀ items : List RTree, (sortItems items).Perm items ∧
      List.Sorted claimOrder (sortItems items)) ∧
    (sortItems ex1Items).map RTree.name = ["z", "a.txt", "b.txt"] ∧
    process_path ex1Net "" "" (.ok ex1Items) initWalkState =
      .ok ⟨⟨[("ua", "data"), ("ub", "data")], ["ua", "ub"]⟩,
           ["├── z", "├── a.txt", "└── b.txt"],
           [("a.txt", "data"), ("b.txt", "data")]⟩ := by
  refine ⟨fun items => ⟨sortItems_perm items, ?_⟩, by decide, ex1_run⟩
  exact (sortItems_sorted items).imp fun h => itemLe_imp_claimOrder h

/-- C2: whenever `process_path` succeeds on a listing, what it appended to
the structure lines splits into one block per sorted entry, each block
headed by that entry's own line `prefix ++ connector ++ name` with
connector `└── ` exactly for the last sibling and `├── ` otherwise. -/
theorem c2_connector_lines :
    ∀ (net : String → FetchResponse) (path pfx : String) (items : List RTree)
      (st st' : WalkState),
      process_path net path pfx (.ok items) st = .ok st' →
      ∃ lines, st'.structure_ = st.structure_ ++ lines ∧
        BlocksFor pfx (sortItems items).length 0 (sortItems items) lines := by
  intro net path pfx items st st' h
  simp only [process_path] at h
  rw [← walkF_eq (sizeOf (sortItems items)) net path pfx (sortItems items)
    (sortItems items).length 0 st (Nat.le_refl _)] at h
  exact ⟨_, walkF_structure _ _ _ _ _ _ _ _ _ h,
    renderLoop_blocksFor pfx (sortItems items).length (sortItems items) 0⟩

theorem c2_witness :
    ∃ lines,
      (⟨⟨[("ua", "data"), ("ub", "data")], ["ua", "ub"]⟩,
        ["├── z", "├── a.txt", "└── b.txt"],
        [("a.txt", "data"), ("b.txt", "data")]⟩ : WalkState).structure_ =
        initWalkState.structure_ ++ lines ∧
      BlocksFor "" (sortItems ex1Items).length 0 (sortItems ex1Items) lines :=
  c2_connector_lines ex1Net "" "" ex1Items initWalkState _ ex1_run

/-- C3: the traversal is depth-first pre-order.  (a) On success the
appended structure lines are exactly `renderLoop` of the sorted listing:
each entry emits its own line first, a directory's fully rendered
descendants follow immediately (under the prefix extended with four
spaces if the directory is the last sibling and a bar plus three spaces
otherwise), and only then do the later siblings' lines come.  (b) The
directory step of the loop is literally a recursive `process_path` call
receiving `(fullPath, prefix ++ extension)` whose result must complete
before the loop resumes with the next sibling. -/
theorem c3_depth_first_preorder :
    (∀ (net : String → FetchResponse) (path pfx : String) (items : List RTree)
      (st st' : WalkState),
      process_path net path pfx (.ok items) st = .ok st' →
      st'.structure_ = st.structure_ ++
        renderLoop pfx (sortItems items) (sortItems items).length 0) ∧
    (∀ (net : String → FetchResponse) (path pfx : String) (item : RTree)
      (rest : List RTree) (count idx : Nat) (st : WalkState),
      item.type = "dir" →
      walk net path pfx (item :: rest) count idx st =
        match process_path net (fullPath path item.name)
            (pfx ++ (if idx = count - 1 then "    " else "│   "))
            item.children
            { st with structure_ := st.structure_ ++
                [pfx ++ (if idx = count - 1 then "└── " else "├── ") ++ item.name] } with
        | .error s => .error s
        | .ok st2 => walk net path pfx rest count (idx + 1) st2) := by
  constructor
  · intro net path pfx items st st' h
    simp only [process_path] at h
    rw [← walkF_eq (sizeOf (sortItems items)) net path pfx (sortItems items)
      (sortItems items).length 0 st (Nat.le_refl _)] at h
    exact walkF_structure _ _ _ _ _ _ _ _ _ h
  · intro net path pfx item rest count idx st hdir
    exact walk_dir_eq_process_path net path pfx item rest count idx st hdir

theorem c3_witness :
    (⟨⟨[("ua", "data"), ("ub", "data")], ["ua", "ub"]⟩,
      ["├── z", "├── a.txt", "└── b.txt"],
      [("a.txt", "data"), ("b.txt", "data")]⟩ : WalkState).structure_ =
      initWalkState.structure_ ++
        renderLoop "" (sortItems ex1Items) (sortItems ex1Items).length 0 ∧
    walk ex1Net "" "" [RTree.node "dir" "z" "uz" (.ok [])] 3 2 initWalkState =
      match process_path ex1Net (fullPath "" "z") ("" ++ (if 2 = 3 - 1 then "    " else "│   "))
          (Except.ok ([] : List RTree))
          { initWalkState with structure_ := initWalkState.structure_ ++
              ["" ++ (if 2 = 3 - 1 then "└── " else "├── ") ++ "z"] } with
      | .error s => .error s
      | .ok st2 => walk ex1Net "" "" [] 3 3 st2 :=
  ⟨c3_depth_first_preorder.1 ex1Net "" "" ex1Items initWalkState _ ex1_run,
   c3_depth_first_preorder.2 ex1Net "" "" (RTree.node "dir" "z" "uz" (.ok [])) [] 3 2
     initWalkState rfl⟩

/-- The state after the walker catches a fetch exception for the file
`n` (locator `u`, message `msg`): one request logged, the cache untouched,
the file's own tree line appended, and the error string stored under the
file's full path. -/
def errState (path pfx n u msg : String) (count idx : Nat)
    (st : WalkState) : WalkState :=
  ⟨⟨st.fetch.cache, st.fetch.log ++ [u]⟩,
   st.structure_ ++ [pfx ++ (if idx = count - 1 then "└── " else "├── ") ++ n],
   dictInsert st.contents (fullPath path n) ("Error reading file: " ++ msg)⟩

/-- C4: an uncached file fetch that raises does not abort the walk: the
step rewrites to the walk of the remaining siblings from a state whose
contents dict maps the file's full path to `"Error reading file: " ++ msg`
and whose structure got the file's own line; and if that remaining walk
succeeds, every later sibling still contributes its block of tree lines
and every later file sibling its contents key. -/
theorem c4_fetch_error_recorded :
    ∀ (net : String → FetchResponse) (path pfx t n u : String)
      (c : Except Nat (List RTree)) (rest : List RTree) (count idx : Nat)
      (st : WalkState) (msg : String),
      t ≠ "dir" →
      dictLookup st.fetch.cache u = none →
      net u = .httpError msg →
      walk net path pfx (RTree.node t n u c :: rest) count idx st =
        walk net path pfx rest count (idx + 1)
          (errState path pfx n u msg count idx st) ∧
      dictLookup (errState path pfx n u msg count idx st).contents
          (fullPath path n) = some ("Error reading file: " ++ msg) ∧
      (∀ st', walk net path pfx rest count (idx + 1)
          (errState path pfx n u msg count idx st) = .ok st' →
        (∃ lines, st'.structure_ =
            (errState path pfx n u msg count idx st).structure_ ++ lines ∧
          BlocksFor pfx count (idx + 1) rest lines) ∧
        ∀ it ∈ rest, it.type ≠ "dir" →
          (dictLookup st'.contents (fullPath path it.name)).isSome) := by
  intro net path pfx t n u c rest count idx st msg hft hmiss hnet
  refine ⟨?_, ?_, ?_⟩
  · rw [walk]
    simp only [RTree.type, RTree.name, RTree.url, if_neg hft]
    simp only [get_file_content, hmiss, hnet]
    rfl
  · exact dictLookup_dictInsert_self _ _ _
  · intro st' hw
    rw [← walkF_eq (sizeOf rest) net path pfx rest count (idx + 1)
      (errState path pfx n u msg count idx st) (Nat.le_refl _)] at hw
    refine ⟨⟨_, walkF_structure _ _ _ _ _ _ _ _ _ hw,
      renderLoop_blocksFor pfx count rest (idx + 1)⟩, ?_⟩
    exact walkF_files_present _ _ _ _ _ _ _ _ _ hw

theorem c4_witness :
    walk c6Net "" "" [RTree.node "file" "a" "u" (.ok []),
        RTree.node "file" "b" "u" (.ok [])] 2 0 initWalkState =
      walk c6Net "" "" [RTree.node "file" "b" "u" (.ok [])] 2 1
        (errState "" "" "a" "u" "boom" 2 0 initWalkState) ∧
    dictLookup (errState "" "" "a" "u" "boom" 2 0 initWalkState).contents
        (fullPath "" "a") = some ("Error reading file: boom") ∧
    (∀ st', walk c6Net "" "" [RTree.node "file" "b" "u" (.ok [])] 2 1
        (errState "" "" "a" "u" "boom" 2 0 initWalkState) = .ok st' →
      (∃ lines, st'.structure_ =
          (errState "" "" "a" "u" "boom" 2 0 initWalkState).structure_ ++ lines ∧
        BlocksFor "" 2 1 [RTree.node "file" "b" "u" (.ok [])] lines) ∧
      ∀ it ∈ [RTree.node "file" "b" "u" (.ok [])], it.type ≠ "dir" →
        (dictLookup st'.contents (fullPath "" it.name)).isSome) :=
  c4_fetch_error_recorded c6Net "" "" "file" "a" "u" (.ok [])
    [RTree.node "file" "b" "u" (.ok [])] 2 0 initWalkState "boom"
    (by decide) rfl rfl

/-- C5: a failing directory listing aborts the whole traversal with that
error: at the root, inside the loop when a subdirectory's listing fails,
and out of `analyze_repo`, which then returns no `(structure, contents)`
pair; the concrete run with a broken subdirectory confirms the nested
case end to end. -/
theorem c5_listing_failure_aborts :
    (∀ (net : String → FetchResponse) (path pfx : String) (s : Nat)
      (st : WalkState), process_path net path pfx (.error s) st = .error s) ∧
    (∀ (net : String → FetchResponse) (path pfx n u : String) (s : Nat)
      (rest : List RTree) (count idx : Nat) (st : WalkState),
      walk net path pfx (RTree.node "dir" n u (.error s) :: rest) count idx st =
        .error s) ∧
    (∀ (net : String → FetchResponse) (s : Nat),
      analyze_repo net (.error s) = .error s) ∧
    analyze_repo ex1Net (.ok c5Items) = .error 404 := by
  refine ⟨fun net path pfx s st => rfl, ?_, fun net s => rfl, c5_run⟩
  intro net path pfx n u s rest count idx st
  rw [walk]
  rfl

/-- C6 counterexample: with two sibling files sharing the locator `u`
whose fetch raises, the run performs two network requests for `u`; the
claimed bound of at most one request per locator per run is false. -/
theorem c6_counterexample :
    ¬ ((match process_path c6Net "" "" (.ok c6Items) initWalkState with
        | .ok st => st.fetch.log.count "u"
        | .error _ => 0) ≤ 1) := by
  rw [c6_run]
  decide

/-- C6 as amended: once a fetch of a locator RETURNS (decoded text or a
soft-fail marker, not a raised error), the value is cached under that
locator and any later fetch of it returns the cached value with the
fetcher state unchanged — no further request is logged; with two sibling
files sharing a locator whose first fetch returns, the whole run logs
exactly one request for it. -/
theorem c6_amended_single_request :
    (∀ (net : String → FetchResponse) (st : FetchState) (u v : String)
      (st' : FetchState),
      get_file_content net st u = (.ok v, st') →
      dictLookup st'.cache u = some v ∧
      get_file_content net st' u = (.ok v, st')) ∧
    (∃ st, process_path c6OkNet "" "" (.ok c6Items) initWalkState = .ok st ∧
      st.fetch.log = ["u"]) := by
  constructor
  · intro net st u v st' h
    unfold get_file_content at h
    cases hm : dictLookup st.cache u with
    | some w =>
      rw [hm] at h
      simp only [Prod.mk.injEq, Except.ok.injEq] at h
      obtain ⟨hv, hst⟩ := h
      subst hv
      subst hst
      constructor
      · exact hm
      · simp [get_file_content, hm]
    | none =>
      rw [hm] at h
      cases hn : net u with
      | httpError msg =>
        rw [hn] at h
        simp at h
      | noContentField =>
        rw [hn] at h
        simp only [Prod.mk.injEq, Except.ok.injEq] at h
        obtain ⟨hv, hst⟩ := h
        subst hv
        subst hst
        refine ⟨dictLookup_dictInsert_self _ _ _, ?_⟩
        simp [get_file_content, dictLookup_dictInsert_self]
      | badDecode =>
        rw [hn] at h
        simp only [Prod.mk.injEq, Except.ok.injEq] at h
        obtain ⟨hv, hst⟩ := h
        subst hv
        subst hst
        refine ⟨dictLookup_dictInsert_self _ _ _, ?_⟩
        simp [get_file_content, dictLookup_dictInsert_self]
      | ok text =>
        rw [hn] at h
        simp only [Prod.mk.injEq, Except.ok.injEq] at h
        obtain ⟨hv, hst⟩ := h
        subst hv
        subst hst
        refine ⟨dictLookup_dictInsert_self _ _ _, ?_⟩
        simp [get_file_content, dictLookup_dictInsert_self]
  · exact ⟨_, c6ok_run, rfl⟩

theorem c6_amended_witness :
    dictLookup (⟨[("u", "x")], ["u"]⟩ : FetchState).cache "u" = some "x" ∧
    get_file_content c6OkNet (⟨[("u", "x")], ["u"]⟩ : FetchState) "u" =
      (.ok "x", (⟨[("u", "x")], ["u"]⟩ : FetchState)) :=
  c6_amended_single_request.1 c6OkNet ⟨[], []⟩ "u" "x" ⟨[("u", "x")], ["u"]⟩ rfl

/-- C7: on a cache miss with a successful HTTP response, a payload with no
`content` field returns (and caches) exactly the marker string
`"Non-text content or unexpected format."`, and a payload whose content
fails to decode returns (and caches) exactly
`"Error decoding content (possibly binary file)."`; neither case raises. -/
theorem c7_soft_fail_markers :
    ∀ (net : String → FetchResponse) (st : FetchState) (u : String),
      dictLookup st.cache u = none →
      (net u = .noContentField →
        get_file_content net st u =
          (.ok "Non-text content or unexpected format.",
           ⟨dictInsert st.cache u "Non-text content or unexpected format.",
            st.log ++ [u]⟩)) ∧
      (net u = .badDecode →
        get_file_content net st u =
          (.ok "Error decoding content (possibly binary file).",
           ⟨dictInsert st.cache u "Error decoding content (possibly binary file).",
            st.log ++ [u]⟩)) := by
  intro net st u hmiss
  constructor
  · intro hnet
    simp [get_file_content, hmiss, hnet]
  · intro hnet
    simp [get_file_content, hmiss, hnet]

def noContentNet : String → FetchResponse := fun _ => .noContentField

def badDecodeNet : String → FetchResponse := fun _ => .badDecode

theorem c7_witness :
    get_file_content noContentNet ⟨[], []⟩ "u" =
      (.ok "Non-text content or unexpected format.",
       ⟨dictInsert [] "u" "Non-text content or unexpected format.", [] ++ ["u"]⟩) ∧
    get_file_content badDecodeNet ⟨[], []⟩ "u" =
      (.ok "Error decoding content (possibly binary file).",
       ⟨dictInsert [] "u" "Error decoding content (possibly binary file).", [] ++ ["u"]⟩) :=
  ⟨(c7_soft_fail_markers noContentNet ⟨[], []⟩ "u" rfl).1 rfl,
   (c7_soft_fail_markers badDecodeNet ⟨[], []⟩ "u" rfl).2 rfl⟩

/-- C8: the URL identity parser.  For every owner `o` and repository name
`r` drawn from the character sets the patterns capture (non-empty, no
slash, no dot), each of the three accepted URL shapes parses to exactly
`(o, r)`; and any string in which neither pattern matches anywhere is
rejected with the fixed invalid-URL error. -/
theorem c8_url_identity :
    (∀ o r : String,
      o.data ≠ [] → (∀ c ∈ o.data, c ≠ '/' ∧ c ≠ '.') →
      r.data ≠ [] → (∀ c ∈ r.data, c ≠ '/' ∧ c ≠ '.') →
      «_parse_github_url» ("https://github.com/" ++ o ++ "/" ++ r) = .ok (o, r) ∧
      «_parse_github_url» ("https://github.com/" ++ o ++ "/" ++ r ++ "/") = .ok (o, r) ∧
      «_parse_github_url» ("git@github.com:" ++ o ++ "/" ++ r ++ ".git") = .ok (o, r)) ∧
    (∀ s : String,
      reSearch match1At s.data = none → reSearch match2At s.data = none →
      «_parse_github_url» s =
        .error ("Invalid GitHub URL. Expected format: " ++
          "https://github.com/owner/repo or " ++
          "git@github.com:owner/repo.git")) := by
  constructor
  · intro o r ho1 ho2 hr1 hr2
    exact ⟨parse_https o r ho1 ho2 hr1 hr2,
      parse_web_slash o r ho1 ho2 hr1 hr2,
      parse_ssh o r ho1 ho2 hr1 hr2⟩
  · intro s h1 h2
    unfold «_parse_github_url»
    rw [h1, h2]

theorem c8_witness :
    («_parse_github_url» "https://github.com/octo/hello" = .ok ("octo", "hello") ∧
     «_parse_github_url» "https://github.com/octo/hello/" = .ok ("octo", "hello") ∧
     «_parse_github_url» "git@github.com:octo/hello.git" = .ok ("octo", "hello")) ∧
    «_parse_github_url» "nope" =
      .error ("Invalid GitHub URL. Expected format: " ++
        "https://github.com/owner/repo or " ++
        "git@github.com:owner/repo.git") :=
  ⟨c8_url_identity.1 "octo" "hello" (by decide) (by decide) (by decide) (by decide),
   c8_url_identity.2 "nope" (by decide) (by decide)⟩

/-- C9: the document assembler produces exactly the layout the spec
describes: the structure header with a blank line, a fenced block of the
tree lines joined by newlines, a blank line, the contents header with a
blank line, then per `(path, content)` pair in insertion order a
`## {path}` line, a blank line, a fenced block of the content and a
blank line. -/
theorem c9_assembler_format :
    ∀ (structure_ : List String) (contents : List (String × String)),
      save_analysis structure_ contents = specAssemble structure_ contents := by
  intro s c
  rw [save_analysis, specAssemble, contentsSections_eq_spec]
  simp only [String.append_assoc]
  rw [show ("# Repository Structure\n\n" : String) =
      "# Repository Structure" ++ ("\n" ++ "\n") from rfl,
    show ("\n```\n\n" : String) = "\n```\n" ++ "\n" from rfl,
    show ("# File Contents\n\n" : String) =
      "# File Contents" ++ ("\n" ++ "\n") from rfl]
  simp only [String.append_assoc]

/-- C10: contents-dict keys stay unique in every completed run, because a
duplicated full path overwrites rather than duplicates; concretely, two
sibling file entries both named `a` (locators `u1`, `u2`) produce two
tree lines but a single contents entry holding the later value. -/
theorem c10_duplicate_full_paths :
    (∀ (net : String → FetchResponse) (root : Except Nat (List RTree))
      (s : List String) (c : List (String × String)),
      analyze_repo net root = .ok (s, c) → (c.map Prod.fst).Nodup) ∧
    process_path c10Net "" "" (.ok c10Items) initWalkState =
      .ok ⟨⟨[("u1", "one"), ("u2", "two")], ["u1", "u2"]⟩,
           ["├── a", "└── a"], [("a", "two")]⟩ := by
  constructor
  · intro net root s c h
    unfold analyze_repo at h
    cases hp : process_path net "" "" root initWalkState with
    | error e => rw [hp] at h; exact Except.noConfusion h
    | ok st =>
      rw [hp] at h
      simp only [Except.ok.injEq, Prod.mk.injEq] at h
      obtain ⟨hs, hc⟩ := h
      subst hc
      cases root with
      | error e => exact Except.noConfusion hp
      | ok items =>
        simp only [process_path] at hp
        rw [← walkF_eq (sizeOf (sortItems items)) net "" "" (sortItems items)
          (sortItems items).length 0 initWalkState (Nat.le_refl _)] at hp
        exact walkF_contents_invariant (fun m => (m.map Prod.fst).Nodup)
          (fun m k v hm => dictInsert_keys_nodup k v hm) _ _ _ _ _ _ _ _ _
          hp List.nodup_nil
  · exact c10_run

theorem c10_analyze_run :
    analyze_repo c10Net (.ok c10Items) =
      .ok (["├── a", "└── a"], [("a", "two")]) := by
  rw [analyze_repo, process_path]
  rw [← walkF_eq (sizeOf (sortItems c10Items)) c10Net "" "" (sortItems c10Items)
    (sortItems c10Items).length 0 initWalkState (Nat.le_refl _)]
  decide

theorem c10_witness :
    (([("a", "two")] : List (String × String)).map Prod.fst).Nodup :=
  c10_duplicate_full_paths.1 c10Net (.ok c10Items) ["├── a", "└── a"]
    [("a", "two")] c10_analyze_run
